import Mathlib

/-!
Shallow embedding of the aura build-target runner (agilira/aura), covering the
build-orchestration engine: variable resolution (`GetVar`, funcs.go), token
substitution (`ParseVars`, parse.go), command dispatch and target execution
(`ExecuteCommand`, `ExecuteCommandWithContext`, `ExecuteAllWithContext`,
`runTargetWithContext`, `RunDepsWithContext`).

Strings are modelled as lists of characters (`Str`).  OS interaction (spawning
the platform shell, `os.Chdir`, `os.Getwd`, `os.Getenv`, `time.Now`) is
abstracted into an oracle record `OsModel` over an opaque world type `W`;
console output (`fmt.Print*` to stdout, `fmt.Fprintf(os.Stderr, ...)`) is
collected in a state record `St`.  The unbounded mutual recursion of
`runTargetWithContext` / `RunDepsWithContext` is modelled with explicit fuel
(`runTargetFuel`): a result of `none` means the call does not return within
the given recursion depth, for any depth.
-/

/-- Strings of the Go program, modelled as lists of characters. -/
abbrev Str := List Char

/-- Embed a Lean string literal into the character-list representation. -/
def str (s : String) : Str := s.toList

/-- A Go regexp `\w` word character: ASCII letter, digit or underscore. -/
def wordChar (c : Char) : Bool := c.isAlphanum || c = '_'

/-- Whitespace recognised by `strings.TrimSpace` (the ASCII cases). -/
def spaceChar (c : Char) : Bool :=
  c = ' ' || c = '\t' || c = '\n' || c = '\x0b' || c = '\x0c' || c = '\r'

/-- One of the two brace characters, the cutset of `strings.Trim(s, "{}")`. -/
def braceChar (c : Char) : Bool := c = '\x7b' || c = '\x7d'

/-- Drop the characters satisfying `p` from both ends of a string
(the shape of Go `strings.Trim`). -/
def trimBy (p : Char → Bool) (s : Str) : Str :=
  ((s.dropWhile p).reverse.dropWhile p).reverse

/-- Go `strings.TrimSpace`. -/
def trimSpace (s : Str) : Str := trimBy spaceChar s

/-- Go `strings.Trim(s, "$")` as used by `GetVar`. -/
def trimDollar (s : Str) : Str := trimBy (fun c => c = '$') s

/-- Go `strings.Trim(s, "{}")` as used by `ParseVars`. -/
def trimBraces (s : Str) : Str := trimBy braceChar s

/-- Go `strings.TrimPrefix(s, "$")`: drop a single leading `$` when present. -/
def dropDollarOnce : Str → Str
  | '$' :: s => s
  | s => s

/-- Association-list model of a Go map with string keys (keys unique). -/
def lookupAssoc {α : Type} : List (Str × α) → Str → Option α
  | [], _ => none
  | (k, v) :: rest, key => if k = key then some v else lookupAssoc rest key

/-- Go `strings.Replace(s, old, new, 1)` when `old` is nonempty: replace the
first occurrence of `old` in `s` (the recursive scan). -/
def replaceFirstGo (old new : Str) : Str → Str
  | [] => []
  | c :: cs =>
    if old.isPrefixOf (c :: cs) then new ++ (c :: cs).drop old.length
    else c :: replaceFirstGo old new cs

/-- Go `strings.Replace(s, old, new, 1)`, including the empty-`old` case
(insertion at the front). -/
def replaceFirst (s old new : Str) : Str :=
  if old = [] then new ++ s else replaceFirstGo old new s

/-- Longest prefix of word characters and the remainder: the greedy `\w+`
submatch of the token regexp. -/
def takeWord : Str → Str × Str
  | [] => ([], [])
  | c :: cs =>
    if wordChar c then
      let p := takeWord cs
      (c :: p.1, p.2)
    else ([], c :: cs)

/-- The braced alternative `\$\x7b[^\x7d]+\x7d` of the token regexp, applied
after `$` and `\x7b` have been consumed: a nonempty run of non-`\x7d`
characters must be followed by `\x7d`; returns the whole token (sigil and
braces included) and the remainder. -/
def matchBraced (cs : Str) : Option (Str × Str) :=
  let content := cs.takeWhile (fun ch => !(ch = '\x7d'))
  let rest2 := cs.dropWhile (fun ch => !(ch = '\x7d'))
  if content = [] then none
  else if rest2.headD ' ' = '\x7d' then
    some ('$' :: '\x7b' :: (content ++ ['\x7d']), rest2.tail)
  else none

/-- The three alternatives of the token regexp after a leading `$`, in Go
regexp leftmost-first order: greedy `\w+`, braced, literal `@`. -/
def matchTokenCore (c : Char) (cs : Str) : Option (Str × Str) :=
  if wordChar c then some ('$' :: (takeWord (c :: cs)).1, (takeWord (c :: cs)).2)
  else if c = '\x7b' then matchBraced cs
  else if c = '@' then some (['$', '@'], cs)
  else none

/-- Attempt a token match at the start of the string: a token starts with
`$` and needs at least one further character. -/
def matchTokenAt : Str → Option (Str × Str)
  | c0 :: c :: cs => if c0 = '$' then matchTokenCore c cs else none
  | _ => none

/-- Fuel-indexed scanner loop: scan left to right, collecting non-overlapping
matches of the token regexp and skipping one character when no match starts
at the current position.  `findTokens` supplies enough fuel; the fuel only
makes the recursion structural. -/
def findTokensAux : Nat → Str → List Str
  | 0, _ => []
  | _, [] => []
  | fuel + 1, c :: cs =>
    match matchTokenAt (c :: cs) with
    | some (m, rest) => m :: findTokensAux fuel rest
    | none => findTokensAux fuel cs

/-- Go `regexp.FindAllString(text, -1)` for the token regexp of `ParseVars`. -/
def findTokens (s : Str) : List Str := findTokensAux s.length s

/-- Abstract model of the operating system used by the engine, over an opaque
world type `W`: the platform shell (`exec.Command(...).CombinedOutput`, giving
combined output and an optional error message), `os.Chdir`, `os.Getwd`,
`os.Getenv` and `time.Now` (already formatted). -/
structure OsModel (W : Type) where
  shell : W → Str → Str × Option Str × W
  chdir : W → Str → Option Str × W
  getcwd : W → Str
  getenv : Str → Str
  now : W → Str × W

/-- Execution state: the OS world plus the collected console output
(stdout lines and stderr lines). -/
structure St (W : Type) where
  w : W
  stdout : List Str
  stderr : List Str

/-- Record a line printed to standard output. -/
def pushOut {W : Type} (st : St W) (s : Str) : St W :=
  ⟨st.w, st.stdout ++ [s], st.stderr⟩

/-- Record a line printed to standard error. -/
def pushErrLine {W : Type} (st : St W) (s : Str) : St W :=
  ⟨st.w, st.stdout, st.stderr ++ [s]⟩

/-- Replace the OS world component of the state. -/
def setWorld {W : Type} (st : St W) (w : W) : St W :=
  ⟨w, st.stdout, st.stderr⟩

/-- funcs.go `GetVar`: trim `$` from the name; resolve the built-ins
`TIMESTAMP` (current time), `@` (current target name) and `cwd` (current
working directory); otherwise read `cfg.Vars[name]` and, when the stored
value is blank (`strings.TrimSpace` empty, which includes an absent key),
fall through to the process environment.  Returns the value and the world
(reading the time advances the world). -/
def GetVar {W : Type} (os : OsModel W) (w : W) (vars : List (Str × Str))
    (name targetName : Str) : Str × W :=
  let nm := trimDollar name
  if nm = str ("TIMESTAMP") then os.now w
  else if nm = str ("@") then (targetName, w)
  else if nm = str ("cwd") then (os.getcwd w, w)
  else
    let ret := (lookupAssoc vars nm).getD []
    if trimSpace ret = [] then (os.getenv nm, w) else (ret, w)

/-- The variant of `GetVar` appended to parse.go: the configured value is
returned whenever the key exists, even when it is blank; only an absent key
falls through to the environment. -/
def GetVarExistsVariant {W : Type} (os : OsModel W) (w : W)
    (vars : List (Str × Str)) (name targetName : Str) : Str × W :=
  let nm := trimDollar name
  if nm = str ("TIMESTAMP") then os.now w
  else if nm = str ("@") then (targetName, w)
  else if nm = str ("cwd") then (os.getcwd w, w)
  else
    match lookupAssoc vars nm with
    | some ret => (ret, w)
    | none => (os.getenv nm, w)

/-- The loop body of `ParseVars`: for each collected match, strip the sigil
and braces, resolve through `GetVar`; an empty resolution emits one warning
to stderr and leaves the text unchanged, a non-empty resolution replaces the
first occurrence of the match in the current working text. -/
def parseVarsLoop {W : Type} (os : OsModel W) (vars : List (Str × Str))
    (targetName : Str) : List Str → Str → St W → Str × St W
  | [], text, st => (text, st)
  | m :: ms, text, st =>
    let varname := trimBraces (dropDollarOnce m)
    let r := GetVar os st.w vars ('$' :: varname) targetName
    let st2 := setWorld st r.2
    if r.1 = [] then
      parseVarsLoop os vars targetName ms text
        (pushErrLine st2 (str ("[warn] undefined variable ") ++ m ++
          str (" in target ") ++ targetName))
    else
      parseVarsLoop os vars targetName ms (replaceFirst text m r.1) st2

/-- parse.go `ParseVars`: collect every token match from the original text,
then process the matches in order through the loop. -/
def ParseVars {W : Type} (os : OsModel W) (vars : List (Str × Str))
    (text targetName : Str) (st : St W) : Str × St W :=
  parseVarsLoop os vars targetName (findTokens text) text st

/-- types.go `Target`: ordered commands, ordered dependency names, optional
custom error text, per-target continue-on-error flag.  `run` and `deps` are
`Option` to model Go nil slices (absent in YAML) as distinct from explicitly
empty slices. -/
structure Target where
  run : Option (List Str)
  deps : Option (List Str)
  onerror : Str
  continueOnError : Bool

/-- types.go `Config`. -/
structure Config where
  continueOnError : Bool
  includes : List Str
  prologue : Target
  vars : List (Str × Str)
  targets : List (Str × Target)
  epilogue : Target

/-- The zero-value `Target` a Go map lookup yields for an absent key. -/
def emptyTarget : Target := ⟨none, none, [], false⟩

/-- funcs.go `GetTarget`: map lookup with the zero value for absent names. -/
def GetTarget (cfg : Config) (name : Str) : Target :=
  (lookupAssoc cfg.targets name).getD emptyTarget

/-- The orpheus error values produced by the engine: `ExecutionError` and
`NotFoundError`, each carrying the target name and a message. -/
inductive AuraErr where
  | execError : Str → Str → AuraErr
  | notFound : Str → Str → AuraErr

/-- executor `ExecuteCommand` (the context-aware implementation): reject
blank commands, echo the command, handle the `cd` pseudo-command by mutating
the process working directory, otherwise dispatch to the platform shell and
return its combined output and optional error. -/
def ExecuteCommand {W : Type} (os : OsModel W) (st : St W) (command : Str) :
    Str × Option Str × St W :=
  if trimSpace command = [] then ([], some (str ("empty command")), st)
  else
    let st1 := pushOut st command
    if (str ("cd ")).isPrefixOf command then
      let dir := trimSpace (command.drop 3)
      if dir = [] then ([], some (str ("no directory specified for cd")), st1)
      else
        let r := os.chdir st1.w dir
        match r.1 with
        | some e => ([], some e, setWorld st1 r.2)
        | none => ([], none, setWorld st1 r.2)
    else
      let r := os.shell st1.w command
      (r.1, r.2.1, setWorld st1 r.2.2)

/-- `ExecuteCommandWithContext`: echo the command when verbose; in dry-run
mode print the intended command and return empty output and no error without
touching the OS; otherwise fall through to `ExecuteCommand`. -/
def ExecuteCommandWithContext {W : Type} (os : OsModel W) (st : St W)
    (command : Str) (verbose dryRun : Bool) : Str × Option Str × St W :=
  let st1 := if verbose then pushOut st (str ("→ ") ++ command) else st
  if dryRun then
    ([], none, pushOut st1 (str ("  [DRY RUN] Would execute: ") ++ command))
  else ExecuteCommand os st1 command

/-- The command loop of `ExecuteAllWithContext`: substitute variables,
dispatch, and on a (non-dry-run) failure compose the diagnostic from the
target name and either the custom `onerror` text or the raw error; continue
with a warning when the target-level or global continue-on-error flag is
set, abort with an `ExecutionError` otherwise; print non-blank output. -/
def execCmds {W : Type} (os : OsModel W) (cfg : Config) (name : Str)
    (target : Target) (verbose dryRun : Bool) :
    List Str → St W → Except AuraErr Unit × St W
  | [], st => (Except.ok (), st)
  | cmd :: rest, st =>
    let p := ParseVars os cfg.vars cmd name st
    let e := ExecuteCommandWithContext os p.2 p.1 verbose dryRun
    let bad := e.2.1.isSome && !dryRun
    let outerr := str ("in ") ++ name ++ str (" -> \n") ++
      (if trimSpace target.onerror = [] then (e.2.1.getD []) else target.onerror)
    if bad && !(target.continueOnError || cfg.continueOnError) then
      (Except.error (AuraErr.execError name outerr), e.2.2)
    else
      let st3 := if bad then pushErrLine e.2.2 (str ("Warning: ") ++ outerr)
        else e.2.2
      let st4 := if !(trimSpace e.1 = []) && !dryRun then pushOut st3 e.1 else st3
      execCmds os cfg name target verbose dryRun rest st4

/-- `ExecuteAllWithContext`: run every command of the target in order. -/
def ExecuteAllWithContext {W : Type} (os : OsModel W) (cfg : Config)
    (name : Str) (target : Target) (verbose dryRun : Bool) (st : St W) :
    Except AuraErr Unit × St W :=
  execCmds os cfg name target verbose dryRun (target.run.getD []) st

/-- The dependency loop of `RunDepsWithContext`: a dependency containing a
`.` is a file dependency (a no-op placeholder, echoed when verbose); any
other name is run recursively via `step`, propagating the first error. -/
def depsLoop {W : Type} (verbose : Bool)
    (step : Str → St W → Option (Except AuraErr Unit × St W)) :
    List Str → St W → Option (Except AuraErr Unit × St W)
  | [], st => some (Except.ok (), st)
  | dep :: rest, st =>
    if '.' ∈ dep then
      let st1 := if verbose then
        pushOut st (str ("Checking file dependency: ") ++ dep) else st
      depsLoop verbose step rest st1
    else
      match step dep st with
      | none => none
      | some (Except.error e, st1) => some (Except.error e, st1)
      | some (Except.ok _, st1) => depsLoop verbose step rest st1

/-- `runTargetWithContext`, with fuel bounding the recursion depth of the
dependency walk (the Go code recurses without bound; `none` models a call
that does not return within the given depth).  Look the target up, run its
dependencies, treat a target with nil `run` and nil `deps` as not found
(always an error, regardless of continuation flags), then execute its
commands. -/
def runTargetFuel {W : Type} (os : OsModel W) (cfg : Config)
    (verbose dryRun : Bool) : Nat → Str → St W → Option (Except AuraErr Unit × St W)
  | 0, _, _ => none
  | fuel + 1, name, st =>
    let target := GetTarget cfg name
    match depsLoop verbose (runTargetFuel os cfg verbose dryRun fuel)
        (target.deps.getD []) st with
    | none => none
    | some (Except.error e, st1) => some (Except.error e, st1)
    | some (Except.ok _, st1) =>
      if target.run = none ∧ target.deps = none then
        some (Except.error (AuraErr.notFound name
          (str ("target \x27") ++ name ++ str ("\x27 not found"))), st1)
      else
        some (ExecuteAllWithContext os cfg name target verbose dryRun st1)

/-- `RunDepsWithContext` of a target, at a given recursion depth. -/
def RunDepsWithContext {W : Type} (os : OsModel W) (cfg : Config)
    (verbose dryRun : Bool) (fuel : Nat) (t : Target) (st : St W) :
    Option (Except AuraErr Unit × St W) :=
  depsLoop verbose (runTargetFuel os cfg verbose dryRun fuel) (t.deps.getD []) st

/-- A concrete OS oracle over a world that traces the shell-executed
commands: every command succeeds with empty output except the literal
command `fail`, which reports `exit status 1`; `cd` always succeeds; the
environment is empty.  Used to instantiate the policy theorems. -/
def oracleOs : OsModel (List Str) :=
  ⟨fun w c =>
      if c = str ("fail") then ([], some (str ("exit status 1")), w ++ [c])
      else ([], none, w ++ [c]),
   fun w _ => (none, w),
   fun _ => [],
   fun _ => [],
   fun w => ([], w)⟩

/-- The initial state: empty trace, no console output. -/
def st0 : St (List Str) := ⟨[], [], []⟩

/-- Configuration used to witness C4: one target with explicitly empty
command and dependency lists. -/
def c4Cfg : Config :=
  ⟨false, [], emptyTarget, [], [(str ("E2"), ⟨some [], some [], [], false⟩)], emptyTarget⟩

/-- Configuration refuting C2 as stated: target `E` is declared with an
explicitly empty `run` list and no `deps`. -/
def c2Cfg : Config :=
  ⟨false, [], emptyTarget, [], [(str ("E"), ⟨some [], none, [], false⟩)], emptyTarget⟩

/-- Configuration witnessing C2 amended: target `X` is declared with only
`continue_on_error: true` (nil run, nil deps) and the global flag is true. -/
def c2AmCfg : Config :=
  ⟨true, [], emptyTarget, [], [(str ("X"), ⟨none, none, [], true⟩)], emptyTarget⟩

/-- The two-target dependency cycle: `A` depends on `B` and `B` on `A`. -/
def cycleCfg : Config :=
  ⟨false, [], emptyTarget, [],
   [(str ("A"), ⟨none, some [str ("B")], [], false⟩),
    (str ("B"), ⟨none, some [str ("A")], [], false⟩)], emptyTarget⟩

/-- The three-command target of the continuation-policy scenario:
`[ok1, fail, ok2]` with a custom error text and a target-level flag. -/
def c1Target (onerr : Str) (tCont : Bool) : Target :=
  ⟨some [str ("ok1"), str ("fail"), str ("ok2")], none, onerr, tCont⟩

/-- Configuration for the continuation-policy scenario: the scenario target
under the name `T`, and `P` depending on `T` for the propagation part. -/
def c1Config (onerr : Str) (tCont gCont : Bool) : Config :=
  ⟨gCont, [], emptyTarget, [],
   [(str ("T"), c1Target onerr tCont),
    (str ("P"), ⟨none, some [str ("T")], [], false⟩)], emptyTarget⟩

/-- The diagnostic `ExecuteAllWithContext` composes for a failure of the
`fail` command: the target name followed by the custom `onerror` text when
it is non-blank, else the raw error text. -/
def composedDiag (name onerr : Str) : Str :=
  str ("in ") ++ name ++ str (" -> \n") ++
    (if trimSpace onerr = [] then str ("exit status 1") else onerr)

/-- Whether a string is empty or starts with a non-word character — the
condition under which a greedy `\w+` match cannot extend into it. -/
def headNotWordB : Str → Bool
  | [] => true
  | c :: _ => !wordChar c

/-- Joining pieces with a separator: `sepJoin sep [s0, s1, ..., sn]` is
`s0 ++ sep ++ s1 ++ sep ++ ... ++ sep ++ sn`. -/
def sepJoin (sep : Str) : List Str → Str
  | [] => []
  | [s] => s
  | s :: rest => s ++ sep ++ sepJoin sep rest

/-- Writing back the current world is the identity on states. -/
theorem setWorld_self {W : Type} (st : St W) : setWorld st st.w = st := rfl

/-- C8: dry-run dispatch returns empty output and no error, unconditionally
(for any command, including `cd`, failing and empty commands), performs no
OS interaction (the world, hence the process working directory, is
unchanged) and writes nothing to stderr. -/
theorem dryRun_dispatch_pure {W : Type} (os : OsModel W) (st : St W)
    (command : Str) (verbose : Bool) :
    (ExecuteCommandWithContext os st command verbose true).1 = []
    ∧ (ExecuteCommandWithContext os st command verbose true).2.1 = none
    ∧ (ExecuteCommandWithContext os st command verbose true).2.2.w = st.w
    ∧ (ExecuteCommandWithContext os st command verbose true).2.2.stderr = st.stderr := by
  cases verbose <;> simp [ExecuteCommandWithContext, pushOut]

/-- C9: dispatching an empty or whitespace-only command returns an error and
empty output, before any OS interaction. -/
theorem executeCommand_blank_error {W : Type} (os : OsModel W) (st : St W)
    (command : Str) (h : trimSpace command = []) :
    ExecuteCommand os st command = ([], some (str ("empty command")), st) := by
  simp [ExecuteCommand, h]

/-- Witness for C9 at the whitespace command. -/
theorem executeCommand_blank_error_witness :
    trimSpace (str ("  ")) = []
    ∧ ExecuteCommand oracleOs st0 (str ("  ")) = ([], some (str ("empty command")), st0) :=
  ⟨by decide, executeCommand_blank_error oracleOs st0 (str ("  ")) (by decide)⟩

/-- C4: a target whose `run` list is empty (nil or explicitly empty)
produces no output and no error: command execution leaves the state exactly
unchanged and succeeds; and running such a target through the target runner
(when its `deps` list is explicitly empty, so the nil-nil not-found check
does not fire) also succeeds with the state unchanged. -/
theorem emptyRun_no_output_no_error {W : Type} (os : OsModel W) (cfg : Config)
    (name : Str) (target : Target) (verbose dryRun : Bool) (st : St W) :
    (target.run.getD [] = [] →
      ExecuteAllWithContext os cfg name target verbose dryRun st = (Except.ok (), st))
    ∧ ((GetTarget cfg name).run = some [] → (GetTarget cfg name).deps = some [] →
      ∀ fuel : Nat, runTargetFuel os cfg verbose dryRun (fuel + 1) name st
        = some (Except.ok (), st)) := by
  constructor
  · intro h
    simp [ExecuteAllWithContext, h, execCmds]
  · intro hr hd fuel
    simp [runTargetFuel, hr, hd, depsLoop, ExecuteAllWithContext, execCmds]

/-- Witness for C4 at an explicitly empty target. -/
theorem emptyRun_no_output_no_error_witness :
    ExecuteAllWithContext oracleOs c4Cfg (str ("E2")) ⟨some [], some [], [], false⟩
        false false st0 = (Except.ok (), st0)
    ∧ runTargetFuel oracleOs c4Cfg false false 1 (str ("E2")) st0
        = some (Except.ok (), st0) :=
  ⟨(emptyRun_no_output_no_error oracleOs c4Cfg (str ("E2"))
      ⟨some [], some [], [], false⟩ false false st0).1 rfl,
   (emptyRun_no_output_no_error oracleOs c4Cfg (str ("E2"))
      ⟨some [], some [], [], false⟩ false false st0).2 rfl rfl 0⟩

/-- C2 counterexample: the lookup of `E` yields a target with no run
commands and no deps entries, yet running it returns success, not a
not-found error — the code's check is on Go nil slices, not emptiness. -/
theorem runTarget_emptyRunList_no_notFound_cex :
    (GetTarget c2Cfg (str ("E"))).run.getD [] = []
    ∧ (GetTarget c2Cfg (str ("E"))).deps.getD [] = []
    ∧ runTargetFuel oracleOs c2Cfg false false 2 (str ("E")) st0
        = some (Except.ok (), st0) :=
  ⟨rfl, rfl, rfl⟩

/-- C2 amended: whenever the lookup yields a target whose `run` and `deps`
are both nil (in particular for every unregistered name), running it returns
the not-found error with the state unchanged, regardless of any target-level
or global continue-on-error setting (both are quantified inside `cfg`). -/
theorem runTarget_nilTarget_notFound {W : Type} (os : OsModel W) (cfg : Config)
    (verbose dryRun : Bool) (name : Str) (st : St W) (fuel : Nat)
    (hr : (GetTarget cfg name).run = none) (hd : (GetTarget cfg name).deps = none) :
    runTargetFuel os cfg verbose dryRun (fuel + 1) name st
      = some (Except.error (AuraErr.notFound name
          (str ("target \x27") ++ name ++ str ("\x27 not found"))), st) := by
  simp [runTargetFuel, hr, hd, depsLoop]

/-- Witness for C2 amended: even with both continue-on-error flags set, the
nil-nil target aborts with the not-found error. -/
theorem runTarget_nilTarget_notFound_witness :
    runTargetFuel oracleOs c2AmCfg true true 1 (str ("X")) st0
      = some (Except.error (AuraErr.notFound (str ("X"))
          (str ("target \x27") ++ str ("X") ++ str ("\x27 not found"))), st0) :=
  runTarget_nilTarget_notFound oracleOs c2AmCfg true true (str ("X")) st0 0 rfl rfl

/-- C3: on the dependency cycle the target runner exhausts every recursion
depth without returning — the Go code has no cycle detection, so the walk
recurses without bound instead of reporting a cycle error. -/
theorem cycle_recursion_never_returns {W : Type} (os : OsModel W)
    (verbose dryRun : Bool) : ∀ (fuel : Nat) (st : St W),
    runTargetFuel os cycleCfg verbose dryRun fuel (str ("A")) st = none
    ∧ runTargetFuel os cycleCfg verbose dryRun fuel (str ("B")) st = none := by
  intro fuel
  induction fuel with
  | zero => intro st; exact ⟨rfl, rfl⟩
  | succ n ih =>
    intro st
    have hA : GetTarget cycleCfg (str ("A")) = ⟨none, some [str ("B")], [], false⟩ := rfl
    have hB : GetTarget cycleCfg (str ("B")) = ⟨none, some [str ("A")], [], false⟩ := rfl
    have hdA : ¬ ('.' ∈ str ("B")) := by decide
    have hdB : ¬ ('.' ∈ str ("A")) := by decide
    constructor
    · simp [runTargetFuel, hA, depsLoop, hdA, (ih st).2]
    · simp [runTargetFuel, hB, depsLoop, hdB, (ih st).1]

/-- C5 counterexample: the name `X` is present in the configured variables
with the blank value `" "`, yet `GetVar` returns the (empty) environment
value instead of the stored value — a blank configured value falls through
to the environment in funcs.go. -/
theorem getVar_blank_falls_to_env_cex :
    lookupAssoc [(str ("X"), str (" "))] (str ("X")) = some (str (" "))
    ∧ (GetVar oracleOs ([] : List Str) [(str ("X"), str (" "))] (str ("X")) (str ("t"))).1 = []
    ∧ str (" ") ≠ ([] : Str) :=
  ⟨rfl, rfl, by decide⟩

/-- C5 amended: for a non-built-in name (already `$`-trimmed), `GetVar`
returns the configured value when it is present and non-blank; when the
stored value is blank, or the name is absent, it returns the process
environment value (empty string when the environment lacks it too). -/
theorem getVar_nonbuiltin_resolution {W : Type} (os : OsModel W) (w : W)
    (vars : List (Str × Str)) (name targetName : Str)
    (h0 : trimDollar name = name) (h1 : name ≠ str ("TIMESTAMP"))
    (h2 : name ≠ str ("@")) (h3 : name ≠ str ("cwd")) :
    (∀ v, lookupAssoc vars name = some v → trimSpace v ≠ [] →
        GetVar os w vars name targetName = (v, w))
    ∧ (∀ v, lookupAssoc vars name = some v → trimSpace v = [] →
        GetVar os w vars name targetName = (os.getenv name, w))
    ∧ (lookupAssoc vars name = none →
        GetVar os w vars name targetName = (os.getenv name, w)) := by
  have hemp : trimSpace ([] : Str) = [] := rfl
  refine ⟨fun v hv hnb => ?_, fun v hv hb => ?_, fun hv => ?_⟩
  · simp [GetVar, h0, h1, h2, h3, hv, hnb]
  · simp [GetVar, h0, h1, h2, h3, hv, hb]
  · simp [GetVar, h0, h1, h2, h3, hv, hemp]

/-- Witness for C5 amended at a non-blank configured variable. -/
theorem getVar_nonbuiltin_resolution_witness :
    GetVar oracleOs ([] : List Str) [(str ("CC"), str ("gcc"))] (str ("CC")) (str ("t"))
      = (str ("gcc"), []) :=
  (getVar_nonbuiltin_resolution oracleOs ([] : List Str) [(str ("CC"), str ("gcc"))]
      (str ("CC")) (str ("t")) (by decide) (by decide) (by decide) (by decide)).1
    (str ("gcc")) rfl (by decide)

/-- C1: the continuation policy of `ExecuteAllWithContext` on the scenario
target `[ok1, fail, ok2]`: the failing command is governed by
`target.continueOnError OR config.continueOnError`.  When the disjunction is
true, all three commands are dispatched, exactly one warning carrying the
composed diagnostic is logged, and the run returns no error.  When it is
false, execution aborts immediately after `fail` (`ok2` is never
dispatched), the composed error is returned, and — third part — it
propagates unchanged through the dependency walker to a caller running a
target `P` that depends on `T`. -/
theorem executeAll_continuation_policy (name onerr : Str) (tCont gCont : Bool)
    (st : St (List Str)) :
    ((tCont || gCont) = true →
      ExecuteAllWithContext oracleOs (c1Config onerr tCont gCont) name
          (c1Target onerr tCont) false false st
        = (Except.ok (), ⟨st.w ++ [str ("ok1"), str ("fail"), str ("ok2")],
            st.stdout ++ [str ("ok1"), str ("fail"), str ("ok2")],
            st.stderr ++ [str ("Warning: ") ++ composedDiag name onerr]⟩))
    ∧ ((tCont || gCont) = false →
      ExecuteAllWithContext oracleOs (c1Config onerr tCont gCont) name
          (c1Target onerr tCont) false false st
        = (Except.error (AuraErr.execError name (composedDiag name onerr)),
            ⟨st.w ++ [str ("ok1"), str ("fail")],
             st.stdout ++ [str ("ok1"), str ("fail")], st.stderr⟩))
    ∧ (tCont = false → gCont = false →
      runTargetFuel oracleOs (c1Config onerr tCont gCont) false false 2 (str ("P")) st
        = some (Except.error (AuraErr.execError (str ("T")) (composedDiag (str ("T")) onerr)),
            ⟨st.w ++ [str ("ok1"), str ("fail")],
             st.stdout ++ [str ("ok1"), str ("fail")], st.stderr⟩)) := by
  have hf1 : findTokens (str ("ok1")) = [] := by decide
  have hf2 : findTokens (str ("fail")) = [] := by decide
  have hf3 : findTokens (str ("ok2")) = [] := by decide
  have ht1 : ¬ (trimSpace (str ("ok1")) = []) := by decide
  have ht2 : ¬ (trimSpace (str ("fail")) = []) := by decide
  have ht3 : ¬ (trimSpace (str ("ok2")) = []) := by decide
  have hp1 : (str ("cd ")).isPrefixOf (str ("ok1")) = false := by decide
  have hp2 : (str ("cd ")).isPrefixOf (str ("fail")) = false := by decide
  have hp3 : (str ("cd ")).isPrefixOf (str ("ok2")) = false := by decide
  have hs1 : ¬ (str ("ok1") = str ("fail")) := by decide
  have hs3 : ¬ (str ("ok2") = str ("fail")) := by decide
  have hemp : trimSpace ([] : Str) = [] := rfl
  have habort : ∀ (nm : Str) (st2 : St (List Str)), (tCont || gCont) = false →
      ExecuteAllWithContext oracleOs (c1Config onerr tCont gCont) nm
          (c1Target onerr tCont) false false st2
        = (Except.error (AuraErr.execError nm (composedDiag nm onerr)),
            ⟨st2.w ++ [str ("ok1"), str ("fail")],
             st2.stdout ++ [str ("ok1"), str ("fail")], st2.stderr⟩) := by
    intro nm st2 h
    simp [ExecuteAllWithContext, execCmds, ParseVars, hf1, hf2, parseVarsLoop,
      ExecuteCommandWithContext, ExecuteCommand, oracleOs, c1Config, c1Target,
      composedDiag, pushOut, pushErrLine, setWorld, ht1, ht2, hp1, hp2, hs1, hemp, h]
  refine ⟨?_, habort name st, fun ht hg => ?_⟩
  · intro h
    simp [ExecuteAllWithContext, execCmds, ParseVars, hf1, hf2, hf3, parseVarsLoop,
      ExecuteCommandWithContext, ExecuteCommand, oracleOs, c1Config, c1Target,
      composedDiag, pushOut, pushErrLine, setWorld, ht1, ht2, ht3,
      hp1, hp2, hp3, hs1, hs3, hemp, h]
  · have h0 : (tCont || gCont) = false := by rw [ht, hg]; rfl
    have hPT : GetTarget (c1Config onerr tCont gCont) (str ("P"))
        = ⟨none, some [str ("T")], [], false⟩ := rfl
    have hTT : GetTarget (c1Config onerr tCont gCont) (str ("T")) = c1Target onerr tCont := rfl
    have hdot : ¬ ('.' ∈ str ("T")) := by decide
    have hrun : (c1Target onerr tCont).run = some [str ("ok1"), str ("fail"), str ("ok2")] := rfl
    have hdeps : (c1Target onerr tCont).deps = none := rfl
    simp [runTargetFuel, hPT, hTT, depsLoop, hdot, habort (str ("T")) st h0, hrun, hdeps]

/-- Witness for C1: the continue case at `continue_on_error = true` (all
three commands dispatched, one warning, success) and the abort case
propagated through the dependency walker at `continue_on_error = false`. -/
theorem executeAll_continuation_policy_witness :
    ExecuteAllWithContext oracleOs (c1Config [] true false) (str ("b"))
        (c1Target [] true) false false st0
      = (Except.ok (), ⟨[str ("ok1"), str ("fail"), str ("ok2")],
          [str ("ok1"), str ("fail"), str ("ok2")],
          [str ("Warning: ") ++ composedDiag (str ("b")) []]⟩)
    ∧ runTargetFuel oracleOs (c1Config [] false false) false false 2 (str ("P")) st0
      = some (Except.error (AuraErr.execError (str ("T")) (composedDiag (str ("T")) [])),
          ⟨[str ("ok1"), str ("fail")], [str ("ok1"), str ("fail")], []⟩) := by
  constructor
  · have h := (executeAll_continuation_policy (str ("b")) [] true false st0).1 rfl
    simpa [st0] using h
  · have h := (executeAll_continuation_policy (str ("P")) [] false false st0).2.2 rfl rfl
    simpa [st0] using h

/-- `takeWord` splits the input: prefix and remainder concatenate back. -/
theorem takeWord_append (s : Str) : (takeWord s).1 ++ (takeWord s).2 = s := by
  induction s with
  | nil => simp [takeWord]
  | cons c cs ih =>
    by_cases h : wordChar c
    · simp [takeWord, h, ih]
    · simp [takeWord, h]

/-- A successful token match decomposes the input: the token followed by
the remainder is the whole input, and the token spans at least two
characters. -/
theorem matchTokenAt_decomp : ∀ {s m rest : Str},
    matchTokenAt s = some (m, rest) → m ++ rest = s ∧ 2 ≤ m.length := by
  intro s m rest h
  match s with
  | [] => simp [matchTokenAt] at h
  | [c0] => simp [matchTokenAt] at h
  | c0 :: c :: cs =>
    simp only [matchTokenAt] at h
    by_cases h0 : c0 = '$'
    case neg => rw [if_neg h0] at h; exact absurd h (by simp)
    case pos =>
    subst h0
    rw [if_pos rfl] at h
    unfold matchTokenCore at h
    by_cases hw : wordChar c
    · rw [if_pos hw] at h
      rw [Option.some.injEq, Prod.mk.injEq] at h
      obtain ⟨h1, h2⟩ := h
      subst h1; subst h2
      refine ⟨by simp [takeWord_append], ?_⟩
      simp only [takeWord, hw, if_true, List.length_cons]
      omega
    · rw [if_neg hw] at h
      by_cases hb : c = '\x7b'
      · rw [if_pos hb] at h
        subst hb
        unfold matchBraced at h
        set tw := cs.takeWhile (fun ch => !(ch = '\x7d')) with htw
        set dw := cs.dropWhile (fun ch => !(ch = '\x7d')) with hdw
        have hsplit : tw ++ dw = cs := List.takeWhile_append_dropWhile _ cs
        by_cases he : tw = []
        · rw [if_pos he] at h; exact absurd h (by simp)
        · rw [if_neg he] at h
          by_cases hh : dw.headD ' ' = '\x7d'
          · rw [if_pos hh] at h
            rw [Option.some.injEq, Prod.mk.injEq] at h
            obtain ⟨h1, h2⟩ := h
            subst h1; subst h2
            have hdnil : dw ≠ [] := by
              intro hc
              rw [hc] at hh
              exact absurd hh (by decide)
            have hdw2 : dw = '\x7d' :: dw.tail := by
              match dw, hdnil with
              | d :: dt, _ =>
                simp only [List.headD] at hh
                rw [hh]
                rfl
            constructor
            · simp only [List.cons_append, List.append_assoc, List.singleton_append,
                List.nil_append]
              rw [← hdw2, hsplit]
            · simp
          · rw [if_neg hh] at h; exact absurd h (by simp)
      · rw [if_neg hb] at h
        by_cases ha : c = '@'
        · rw [if_pos ha] at h
          rw [Option.some.injEq, Prod.mk.injEq] at h
          obtain ⟨h1, h2⟩ := h
          subst h1; subst h2; subst ha
          exact ⟨rfl, by simp⟩
        · rw [if_neg ha] at h; exact absurd h (by simp)

/-- The scanner loop on the empty string. -/
theorem findTokensAux_nil (fuel : Nat) : findTokensAux fuel [] = [] := by
  cases fuel <;> rfl

/-- The scanner loop does not depend on the fuel once the fuel covers the
length of the input. -/
theorem findTokensAux_fuel_irrel : ∀ (f1 : Nat) (s : Str) (f2 : Nat),
    s.length ≤ f1 → s.length ≤ f2 → findTokensAux f1 s = findTokensAux f2 s := by
  intro f1
  induction f1 with
  | zero =>
    intro s f2 h1 _
    have hs : s = [] := List.length_eq_zero.mp (Nat.le_zero.mp h1)
    subst hs
    rw [findTokensAux_nil, findTokensAux_nil]
  | succ n ih =>
    intro s f2 h1 h2
    match s with
    | [] => rw [findTokensAux_nil, findTokensAux_nil]
    | c :: cs =>
      match f2 with
      | 0 => exact absurd h2 (by simp)
      | k + 1 =>
        simp only [findTokensAux]
        cases hm : matchTokenAt (c :: cs) with
        | none =>
          have hc : cs.length ≤ n := by simp at h1; omega
          have hk : cs.length ≤ k := by simp at h2; omega
          exact ih cs k hc hk
        | some p =>
          obtain ⟨m, rest⟩ := p
          obtain ⟨hsum, hlen⟩ := matchTokenAt_decomp hm
          have hls := congrArg List.length hsum
          simp only [List.length_append, List.length_cons] at hls
          simp only [List.length_cons] at h1 h2
          show m :: findTokensAux n rest = m :: findTokensAux k rest
          rw [ih rest k (by omega) (by omega)]

/-- Unfolding `findTokens` on a successful match at the head. -/
theorem findTokens_cons_some {c : Char} {cs m rest : Str}
    (h : matchTokenAt (c :: cs) = some (m, rest)) :
    findTokens (c :: cs) = m :: findTokens rest := by
  obtain ⟨hsum, hlen⟩ := matchTokenAt_decomp h
  have hls := congrArg List.length hsum
  simp only [List.length_append, List.length_cons] at hls
  show findTokensAux (c :: cs).length (c :: cs) = m :: findTokens rest
  simp only [List.length_cons, findTokensAux, h]
  rw [findTokensAux_fuel_irrel cs.length rest rest.length (by omega) (by omega)]
  rfl

/-- Unfolding `findTokens` when no match starts at the head. -/
theorem findTokens_cons_none {c : Char} {cs : Str}
    (h : matchTokenAt (c :: cs) = none) :
    findTokens (c :: cs) = findTokens cs := by
  show findTokensAux (c :: cs).length (c :: cs) = findTokens cs
  simp only [List.length_cons, findTokensAux, h]
  rfl

/-- No token starts at a character other than `$`. -/
theorem matchTokenAt_not_dollar {c : Char} (h : ¬ (c = '$')) (cs : Str) :
    matchTokenAt (c :: cs) = none := by
  match cs with
  | [] => rfl
  | c2 :: cs2 => simp [matchTokenAt, h]

/-- Scanning skips over a `$`-free prefix. -/
theorem findTokens_nodollar_append {pre : Str} (h : '$' ∉ pre) (r : Str) :
    findTokens (pre ++ r) = findTokens r := by
  induction pre with
  | nil => rfl
  | cons c cspre ih =>
    have hc : ¬ (c = '$') := by
      intro hc; exact h (by rw [hc]; exact List.mem_cons_self _ _)
    have hm : '$' ∉ cspre := fun hmem => h (List.mem_cons_of_mem _ hmem)
    rw [List.cons_append, findTokens_cons_none (matchTokenAt_not_dollar hc _), ih hm]

/-- A `$`-free string contains no tokens. -/
theorem findTokens_nodollar {s : Str} (h : '$' ∉ s) : findTokens s = [] := by
  have := findTokens_nodollar_append h []
  rwa [List.append_nil] at this

/-- `dropWhile` is the identity when no element satisfies the predicate. -/
theorem dropWhile_all_false {p : Char → Bool} : ∀ {l : Str},
    (∀ c ∈ l, p c = false) → l.dropWhile p = l := by
  intro l h
  match l with
  | [] => rfl
  | c :: cs =>
    have hc : p c = false := h c (List.mem_cons_self _ _)
    simp [List.dropWhile_cons, hc]

/-- Trimming is the identity when no character belongs to the cutset. -/
theorem trimBy_noop {p : Char → Bool} {s : Str}
    (h : ∀ c ∈ s, p c = false) : trimBy p s = s := by
  unfold trimBy
  rw [dropWhile_all_false h]
  rw [dropWhile_all_false (fun c hc => h c (List.mem_reverse.mp hc))]
  exact List.reverse_reverse s

/-- Trimming strips one wrapping cutset character from each end when the
middle is cutset-free. -/
theorem trimBy_wrap {p : Char → Bool} {a b : Char} {s : Str}
    (ha : p a = true) (hb : p b = true) (h : ∀ c ∈ s, p c = false) :
    trimBy p (a :: (s ++ [b])) = s := by
  unfold trimBy
  rw [List.dropWhile_cons]
  simp only [ha, if_true]
  match s with
  | [] =>
    simp [List.dropWhile_cons, hb]
  | c :: cs =>
    have hc : p c = false := h c (List.mem_cons_self _ _)
    rw [List.cons_append, List.dropWhile_cons]
    simp only [hc, Bool.false_eq_true, if_false]
    rw [← List.cons_append, List.reverse_append]
    simp only [List.reverse_cons, List.reverse_nil, List.nil_append, List.singleton_append]
    rw [List.dropWhile_cons]
    simp only [hb, if_true]
    have hall : ∀ x ∈ cs.reverse ++ [c], p x = false := by
      intro x hx
      rcases List.mem_append.mp hx with h1 | h2
      · exact h x (List.mem_cons_of_mem _ (List.mem_reverse.mp h1))
      · rw [List.mem_singleton.mp h2]; exact hc
    rw [dropWhile_all_false hall, List.reverse_append]
    simp

/-- A word character is not `$`. -/
theorem wordChar_ne_dollar {c : Char} (h : wordChar c = true) : ¬ (c = '$') := by
  intro hc; subst hc; exact absurd h (by decide)

/-- A word character is not a brace. -/
theorem wordChar_not_brace {c : Char} (h : wordChar c = true) : braceChar c = false := by
  by_cases hb : braceChar c = true
  · rcases Bool.or_eq_true_iff.mp hb with h1 | h2
    · rw [decide_eq_true_iff.mp h1] at h; exact absurd h (by decide)
    · rw [decide_eq_true_iff.mp h2] at h; exact absurd h (by decide)
  · exact Bool.eq_false_iff.mpr hb

/-- The greedy word scan consumes exactly an all-word prefix when the
remainder cannot extend it. -/
theorem takeWord_exact {w r : Str} (hw : ∀ c ∈ w, wordChar c = true)
    (hr : headNotWordB r = true) : takeWord (w ++ r) = (w, r) := by
  induction w with
  | nil =>
    match r with
    | [] => rfl
    | c :: cs =>
      have hc : wordChar c = false := by
        simpa [headNotWordB] using hr
      simp [takeWord, hc]
  | cons c w ih =>
    have hc : wordChar c = true := hw c (List.mem_cons_self _ _)
    have hw2 : ∀ x ∈ w, wordChar x = true := fun x hx => hw x (List.mem_cons_of_mem _ hx)
    simp [takeWord, hc, ih hw2]

/-- The word alternative of the scanner: `$` followed by a nonempty all-word
string that the remainder cannot extend matches exactly that token. -/
theorem matchTokenAt_word {w r : Str} (hne : w ≠ [])
    (hw : ∀ c ∈ w, wordChar c = true) (hr : headNotWordB r = true) :
    matchTokenAt ('$' :: (w ++ r)) = some ('$' :: w, r) := by
  match w, hne with
  | c :: w2, _ =>
    have hc : wordChar c = true := hw c (List.mem_cons_self _ _)
    show (if '$' = '$' then matchTokenCore c (w2 ++ r) else none) = _
    rw [if_pos rfl]
    unfold matchTokenCore
    rw [if_pos hc]
    have := takeWord_exact hw hr
    rw [List.cons_append] at this
    rw [this]

/-- `takeWhile` over a marker-free prefix followed by the marker. -/
theorem takeWhile_marker {content rest : Str} (h : '\x7d' ∉ content) :
    (content ++ '\x7d' :: rest).takeWhile (fun ch => !(ch = '\x7d')) = content := by
  induction content with
  | nil => simp [List.takeWhile_cons]
  | cons c cs ih =>
    have hc : ¬ (c = '\x7d') := fun hc => h (hc ▸ List.mem_cons_self _ _)
    have h2 : '\x7d' ∉ cs := fun hm => h (List.mem_cons_of_mem _ hm)
    simp [List.takeWhile_cons, hc, ih h2]

/-- `dropWhile` over a marker-free prefix followed by the marker. -/
theorem dropWhile_marker {content rest : Str} (h : '\x7d' ∉ content) :
    (content ++ '\x7d' :: rest).dropWhile (fun ch => !(ch = '\x7d')) = '\x7d' :: rest := by
  induction content with
  | nil => simp [List.dropWhile_cons]
  | cons c cs ih =>
    have hc : ¬ (c = '\x7d') := fun hc => h (hc ▸ List.mem_cons_self _ _)
    have h2 : '\x7d' ∉ cs := fun hm => h (List.mem_cons_of_mem _ hm)
    simp [List.dropWhile_cons, hc, ih h2]

/-- The braced alternative of the scanner: a nonempty marker-free brace
content closed by `\x7d` matches as one token spanning the whole brace
group. -/
theorem matchTokenAt_braced {content rest : Str} (hne : content ≠ [])
    (h : '\x7d' ∉ content) :
    matchTokenAt ('$' :: '\x7b' :: (content ++ '\x7d' :: rest))
      = some ('$' :: '\x7b' :: (content ++ ['\x7d']), rest) := by
  show (if '$' = '$' then matchTokenCore '\x7b' (content ++ '\x7d' :: rest) else none) = _
  rw [if_pos rfl]
  unfold matchTokenCore
  rw [if_neg (by decide), if_pos rfl]
  unfold matchBraced
  simp only [takeWhile_marker h, dropWhile_marker h]
  rw [if_neg hne]
  simp [List.headD_cons, List.tail_cons]

/-- A list is a prefix of itself followed by anything (boolean form). -/
theorem isPrefixOf_self_append : ∀ (m t : Str), m.isPrefixOf (m ++ t) = true := by
  intro m
  induction m with
  | nil => intro t; simp [List.isPrefixOf]
  | cons c cs ih => intro t; simp [List.isPrefixOf, ih]

/-- A token beginning with `$` is not a prefix of a string beginning with a
different character. -/
theorem isPrefixOf_dollar_cons {w : Str} {c : Char} (h : ¬ (c = '$')) (t : Str) :
    ('$' :: w).isPrefixOf (c :: t) = false := by
  simp [List.isPrefixOf]
  intro hc
  exact absurd hc.symm h

/-- `replaceFirstGo` replaces the occurrence at the very front. -/
theorem replaceFirstGo_hit {m : Str} (hne : m ≠ []) (v t : Str) :
    replaceFirstGo m v (m ++ t) = v ++ t := by
  match m, hne with
  | c :: cs, _ =>
    show replaceFirstGo (c :: cs) v (c :: (cs ++ t)) = v ++ t
    unfold replaceFirstGo
    rw [show (c :: (cs ++ t)) = (c :: cs) ++ t from rfl,
      isPrefixOf_self_append (c :: cs) t]
    simp [List.drop_left]

/-- `replaceFirstGo` for a `$`-headed token walks over a `$`-free prefix. -/
theorem replaceFirstGo_skip {w pre : Str} (h : '$' ∉ pre) (v t : Str) :
    replaceFirstGo ('$' :: w) v (pre ++ t) = pre ++ replaceFirstGo ('$' :: w) v t := by
  induction pre with
  | nil => rfl
  | cons c cs ih =>
    have hc : ¬ (c = '$') := fun hc => h (hc ▸ List.mem_cons_self _ _)
    have h2 : '$' ∉ cs := fun hm => h (List.mem_cons_of_mem _ hm)
    rw [List.cons_append]
    show (if ('$' :: w).isPrefixOf (c :: (cs ++ t)) then _ else _) = _
    rw [isPrefixOf_dollar_cons hc]
    simp only [Bool.false_eq_true, if_false]
    rw [ih h2, List.cons_append]

/-- `replaceFirst` on a text decomposed around the first token occurrence. -/
theorem replaceFirst_decomp {w pre : Str} (h : '$' ∉ pre) (v t : Str) :
    replaceFirst (pre ++ ('$' :: w) ++ t) ('$' :: w) v = pre ++ v ++ t := by
  unfold replaceFirst
  rw [if_neg (by simp)]
  rw [List.append_assoc, replaceFirstGo_skip h, replaceFirstGo_hit (by simp),
    List.append_assoc]

/-- When a tail piece cannot extend a word token, neither can the joined
remainder starting at that piece. -/
theorem headNotWordB_sepJoin {w : Str} {s2 : Str} (rest : List Str)
    (h : headNotWordB s2 = true) :
    headNotWordB (sepJoin ('$' :: w) (s2 :: rest)) = true := by
  match s2 with
  | c :: cs =>
    match rest with
    | [] => exact h
    | r :: rs =>
      show headNotWordB ((c :: cs) ++ ('$' :: w) ++ sepJoin ('$' :: w) (r :: rs)) = true
      simpa [headNotWordB] using h
  | [] =>
    match rest with
    | [] => rfl
    | r :: rs =>
      show headNotWordB ([] ++ ('$' :: w) ++ sepJoin ('$' :: w) (r :: rs)) = true
      simp [headNotWordB, wordChar]

/-- Scanning a text built from `$`-free pieces joined by one word token
finds exactly one match per separator, each equal to the token. -/
theorem findTokens_sepJoin {w : Str} (hwne : w ≠ [])
    (hw : ∀ c ∈ w, wordChar c = true) :
    ∀ (pieces : List Str), pieces ≠ [] →
    (∀ s ∈ pieces, '$' ∉ s) →
    (∀ s ∈ pieces.tail, headNotWordB s = true) →
    findTokens (sepJoin ('$' :: w) pieces) = List.replicate (pieces.length - 1) ('$' :: w) := by
  intro pieces
  induction pieces with
  | nil => intro h; exact absurd rfl h
  | cons s rest ih =>
    intro _ hds htl
    match rest with
    | [] =>
      show findTokens s = List.replicate 0 ('$' :: w)
      exact findTokens_nodollar (hds s (List.mem_cons_self _ _))
    | s2 :: rs =>
      show findTokens (s ++ ('$' :: w) ++ sepJoin ('$' :: w) (s2 :: rs)) = _
      rw [List.append_assoc,
        findTokens_nodollar_append (hds s (List.mem_cons_self _ _))]
      have hhead : headNotWordB (sepJoin ('$' :: w) (s2 :: rs)) = true :=
        headNotWordB_sepJoin rs (htl s2 (List.mem_cons_self _ _))
      have hmatch := matchTokenAt_word hwne hw hhead
      rw [show ('$' :: (w ++ sepJoin ('$' :: w) (s2 :: rs)))
            = '$' :: w ++ sepJoin ('$' :: w) (s2 :: rs) from rfl] at hmatch
      have hcons : ('$' :: (w ++ sepJoin ('$' :: w) (s2 :: rs)))
          = '$' :: (w ++ sepJoin ('$' :: w) (s2 :: rs)) := rfl
      rw [show ('$' :: w) ++ sepJoin ('$' :: w) (s2 :: rs)
            = '$' :: (w ++ sepJoin ('$' :: w) (s2 :: rs)) by simp] at hmatch ⊢
      rw [findTokens_cons_some hmatch]
      have hds2 : ∀ x ∈ s2 :: rs, '$' ∉ x := fun x hx => hds x (List.mem_cons_of_mem _ hx)
      have htl2 : ∀ x ∈ (s2 :: rs).tail, headNotWordB x = true := by
        intro x hx
        exact htl x (List.mem_cons_of_mem _ hx)
      rw [ih (by simp) hds2 htl2]
      simp [List.replicate]

/-- For a non-built-in (after `$`-trimming) name, `GetVar` leaves the world
unchanged and its value does not depend on the world. -/
theorem getVar_nonbuiltin_pure {W : Type} (os : OsModel W) (vars : List (Str × Str))
    (name tn : Str) (h1 : trimDollar name ≠ str ("TIMESTAMP"))
    (h2 : trimDollar name ≠ str ("@")) (h3 : trimDollar name ≠ str ("cwd"))
    (w w2 : W) :
    GetVar os w vars name tn = ((GetVar os w2 vars name tn).1, w) := by
  simp only [GetVar, h1, h2, h3, if_false, ite_false]
  split <;> simp_all

/-- The substitution loop over non-built-in matches: the world and stdout
are untouched, and stderr gains exactly one warning (naming the token and
the target) per match whose resolution is empty. -/
theorem parseVarsLoop_nonbuiltin {W : Type} (os : OsModel W)
    (vars : List (Str × Str)) (tn : Str) :
    ∀ (ms : List Str) (text : Str) (st : St W),
    (∀ m ∈ ms, trimDollar ('$' :: trimBraces (dropDollarOnce m)) ≠ str ("TIMESTAMP")
      ∧ trimDollar ('$' :: trimBraces (dropDollarOnce m)) ≠ str ("@")
      ∧ trimDollar ('$' :: trimBraces (dropDollarOnce m)) ≠ str ("cwd")) →
    (parseVarsLoop os vars tn ms text st).2.w = st.w
    ∧ (parseVarsLoop os vars tn ms text st).2.stdout = st.stdout
    ∧ (parseVarsLoop os vars tn ms text st).2.stderr = st.stderr ++
        ms.filterMap (fun m =>
          if (GetVar os st.w vars ('$' :: trimBraces (dropDollarOnce m)) tn).1 = []
          then some (str ("[warn] undefined variable ") ++ m ++
            str (" in target ") ++ tn)
          else none) := by
  intro ms
  induction ms with
  | nil => intro text st _; simp [parseVarsLoop]
  | cons m ms ih =>
    intro text st h
    obtain ⟨hb1, hb2, hb3⟩ := h m (List.mem_cons_self _ _)
    have hrest : ∀ x ∈ ms,
        trimDollar ('$' :: trimBraces (dropDollarOnce x)) ≠ str ("TIMESTAMP")
        ∧ trimDollar ('$' :: trimBraces (dropDollarOnce x)) ≠ str ("@")
        ∧ trimDollar ('$' :: trimBraces (dropDollarOnce x)) ≠ str ("cwd") :=
      fun x hx => h x (List.mem_cons_of_mem _ hx)
    have hpure := getVar_nonbuiltin_pure os vars
      ('$' :: trimBraces (dropDollarOnce m)) tn hb1 hb2 hb3 st.w st.w
    by_cases hv : (GetVar os st.w vars ('$' :: trimBraces (dropDollarOnce m)) tn).1 = []
    · have hstep : parseVarsLoop os vars tn (m :: ms) text st
          = parseVarsLoop os vars tn ms text (pushErrLine st
              (str ("[warn] undefined variable ") ++ m ++ str (" in target ") ++ tn)) := by
        simp only [parseVarsLoop]
        rw [hpure]
        simp only [hv, if_true, setWorld, pushErrLine]
      rw [hstep]
      obtain ⟨ihw, iho, ihe⟩ := ih text (pushErrLine st
        (str ("[warn] undefined variable ") ++ m ++ str (" in target ") ++ tn)) hrest
      refine ⟨ihw, iho, ?_⟩
      rw [ihe]
      simp only [pushErrLine, List.filterMap_cons, hv, if_true, List.append_assoc,
        List.singleton_append]
    · have hstep : parseVarsLoop os vars tn (m :: ms) text st
          = parseVarsLoop os vars tn ms
              (replaceFirst text m (GetVar os st.w vars
                ('$' :: trimBraces (dropDollarOnce m)) tn).1) st := by
        simp only [parseVarsLoop]
        rw [hpure]
        simp only [hv, if_false, setWorld]
      rw [hstep]
      obtain ⟨ihw, iho, ihe⟩ := ih (replaceFirst text m (GetVar os st.w vars
        ('$' :: trimBraces (dropDollarOnce m)) tn).1) st hrest
      refine ⟨ihw, iho, ?_⟩
      rw [ihe]
      simp only [List.filterMap_cons, hv, if_false]

/-- When every match resolves empty (and is non-built-in), the substitution
loop returns the text verbatim. -/
theorem parseVarsLoop_allEmpty {W : Type} (os : OsModel W)
    (vars : List (Str × Str)) (tn : Str) :
    ∀ (ms : List Str) (text : Str) (st : St W),
    (∀ m ∈ ms, (trimDollar ('$' :: trimBraces (dropDollarOnce m)) ≠ str ("TIMESTAMP")
      ∧ trimDollar ('$' :: trimBraces (dropDollarOnce m)) ≠ str ("@")
      ∧ trimDollar ('$' :: trimBraces (dropDollarOnce m)) ≠ str ("cwd"))
      ∧ (GetVar os st.w vars ('$' :: trimBraces (dropDollarOnce m)) tn).1 = []) →
    (parseVarsLoop os vars tn ms text st).1 = text := by
  intro ms
  induction ms with
  | nil => intro text st _; rfl
  | cons m ms ih =>
    intro text st h
    obtain ⟨⟨hb1, hb2, hb3⟩, hv⟩ := h m (List.mem_cons_self _ _)
    have hpure := getVar_nonbuiltin_pure os vars
      ('$' :: trimBraces (dropDollarOnce m)) tn hb1 hb2 hb3 st.w st.w
    have hstep : parseVarsLoop os vars tn (m :: ms) text st
        = parseVarsLoop os vars tn ms text (pushErrLine st
            (str ("[warn] undefined variable ") ++ m ++ str (" in target ") ++ tn)) := by
      simp only [parseVarsLoop]
      rw [hpure]
      simp only [hv, if_true, setWorld, pushErrLine]
    rw [hstep]
    refine ih text _ ?_
    intro x hx
    obtain ⟨hbs, hvx⟩ := h x (List.mem_cons_of_mem _ hx)
    refine ⟨hbs, ?_⟩
    have hps : (pushErrLine st (str ("[warn] undefined variable ") ++ m ++
        str (" in target ") ++ tn)).w = st.w := rfl
    rw [hps]
    exact hvx

/-- C7 (amended): every occurrence whose resolution is empty emits exactly
one warning naming the token and the target — N empty-resolving occurrences
of non-built-in tokens yield exactly N warnings — and substitution never
writes anywhere but stderr (it cannot abort a run: it always returns).  When every
token in the string resolves empty, the text is returned verbatim. -/
theorem undefined_tokens_warn {W : Type} (os : OsModel W)
    (vars : List (Str × Str)) (text tn : Str) (st : St W)
    (hb : ∀ m ∈ findTokens text,
      trimDollar ('$' :: trimBraces (dropDollarOnce m)) ≠ str ("TIMESTAMP")
      ∧ trimDollar ('$' :: trimBraces (dropDollarOnce m)) ≠ str ("@")
      ∧ trimDollar ('$' :: trimBraces (dropDollarOnce m)) ≠ str ("cwd")) :
    (ParseVars os vars text tn st).2.w = st.w
    ∧ (ParseVars os vars text tn st).2.stdout = st.stdout
    ∧ (ParseVars os vars text tn st).2.stderr = st.stderr ++
        (findTokens text).filterMap (fun m =>
          if (GetVar os st.w vars ('$' :: trimBraces (dropDollarOnce m)) tn).1 = []
          then some (str ("[warn] undefined variable ") ++ m ++
            str (" in target ") ++ tn)
          else none)
    ∧ ((∀ m ∈ findTokens text,
          (GetVar os st.w vars ('$' :: trimBraces (dropDollarOnce m)) tn).1 = []) →
        (ParseVars os vars text tn st).1 = text) := by
  obtain ⟨h1, h2, h3⟩ := parseVarsLoop_nonbuiltin os vars tn (findTokens text) text st hb
  refine ⟨h1, h2, h3, fun hall => ?_⟩
  exact parseVarsLoop_allEmpty os vars tn (findTokens text) text st
    (fun m hm => ⟨hb m hm, hall m hm⟩)

/-- C7 counterexample: with `UN` defined as `x`, the text `$UNDEF $UN`
resolves `$UNDEF` to empty (one warning, occurrence initially left), but the
later replacement for `$UN` matches *inside* the undefined occurrence —
`strings.Replace` scans the working text from the left — producing
`xDEF $UN`: the undefined occurrence is not left verbatim in the output. -/
theorem undefined_token_destroyed_cex :
    (ParseVars oracleOs [(str ("UN"), str ("x"))] (str ("$UNDEF $UN")) (str ("t")) st0).1
      = str ("xDEF $UN")
    ∧ ¬ (str ("$UNDEF") <:+:
        (ParseVars oracleOs [(str ("UN"), str ("x"))] (str ("$UNDEF $UN")) (str ("t")) st0).1)
    ∧ (ParseVars oracleOs [(str ("UN"), str ("x"))] (str ("$UNDEF $UN")) (str ("t")) st0).2.stderr
      = [str ("[warn] undefined variable $UNDEF in target t")] :=
  ⟨rfl, by decide, rfl⟩

/-- Witness for C7 amended: two undefined tokens yield exactly two warnings
and the text is returned verbatim. -/
theorem undefined_tokens_warn_witness :
    (ParseVars oracleOs [] (str ("echo $U1 $U2")) (str ("t")) st0).2.stderr
      = [str ("[warn] undefined variable $U1 in target t"),
         str ("[warn] undefined variable $U2 in target t")]
    ∧ (ParseVars oracleOs [] (str ("echo $U1 $U2")) (str ("t")) st0).1
      = str ("echo $U1 $U2") := by
  have h := undefined_tokens_warn oracleOs [] (str ("echo $U1 $U2")) (str ("t")) st0
    (by decide)
  refine ⟨?_, h.2.2.2 (by decide)⟩
  rw [h.2.2.1]
  decide

/-- `trimDollar` strips the sigil from a token over word characters. -/
theorem trimDollar_dollar_word {w : Str} (hw : ∀ c ∈ w, wordChar c = true) :
    trimDollar ('$' :: w) = w := by
  have hall : ∀ c ∈ w, (fun c => decide (c = '$')) c = false := by
    intro c hc
    simp only [decide_eq_false_iff_not]
    exact wordChar_ne_dollar (hw c hc)
  unfold trimDollar trimBy
  rw [List.dropWhile_cons]
  simp only [decide_True, if_true]
  rw [dropWhile_all_false hall]
  rw [dropWhile_all_false (fun c hc => hall c (List.mem_reverse.mp hc))]
  exact List.reverse_reverse w

/-- `trimBraces` is the identity on a string of word characters. -/
theorem trimBraces_word {w : Str} (hw : ∀ c ∈ w, wordChar c = true) :
    trimBraces w = w :=
  trimBy_noop (fun c hc => wordChar_not_brace (hw c hc))

/-- `replaceFirst` for a `$`-headed token walks over a `$`-free prefix. -/
theorem replaceFirst_skipPre {pre w : Str} (hpre : '$' ∉ pre) (t v : Str) :
    replaceFirst (pre ++ t) ('$' :: w) v = pre ++ replaceFirst t ('$' :: w) v := by
  unfold replaceFirst
  rw [if_neg (by simp), if_neg (by simp)]
  exact replaceFirstGo_skip hpre v t

/-- The substitution loop distributes over a `$`-free prefix of the working
text when every match is the same non-empty-valued word token. -/
theorem parseVarsLoop_skipPre {W : Type} (os : OsModel W) (vars : List (Str × Str))
    (tn w v : Str) (hname : trimBraces w = w)
    (hres : ∀ ω : W, GetVar os ω vars ('$' :: w) tn = (v, ω)) (hv : ¬ (v = [])) :
    ∀ (k : Nat) (pre text : Str) (st : St W), '$' ∉ pre →
    parseVarsLoop os vars tn (List.replicate k ('$' :: w)) (pre ++ text) st
      = (pre ++ (parseVarsLoop os vars tn (List.replicate k ('$' :: w)) text st).1,
         (parseVarsLoop os vars tn (List.replicate k ('$' :: w)) text st).2) := by
  intro k
  induction k with
  | zero => intro pre text st _; simp [parseVarsLoop]
  | succ n ih =>
    intro pre text st hpre
    show parseVarsLoop os vars tn (('$' :: w) :: List.replicate n ('$' :: w))
        (pre ++ text) st = _
    simp only [parseVarsLoop, dropDollarOnce, hname, hres st.w, setWorld]
    rw [if_neg hv, if_neg hv]
    rw [replaceFirst_skipPre hpre]
    exact ih pre (replaceFirst text ('$' :: w) v) st hpre

/-- The substitution loop on a text of `$`-free pieces joined by N copies of
a word token with non-empty, `$`-free resolved value: each step replaces the
first remaining occurrence, so the result joins the pieces with the value
and the state is untouched. -/
theorem parseVarsLoop_sepJoin {W : Type} (os : OsModel W) (vars : List (Str × Str))
    (tn w v : Str) (hname : trimBraces w = w)
    (hres : ∀ ω : W, GetVar os ω vars ('$' :: w) tn = (v, ω)) (hv : ¬ (v = []))
    (hvd : '$' ∉ v) :
    ∀ (pieces : List Str), pieces ≠ [] → (∀ s ∈ pieces, '$' ∉ s) →
    ∀ (st : St W),
    parseVarsLoop os vars tn (List.replicate (pieces.length - 1) ('$' :: w))
        (sepJoin ('$' :: w) pieces) st
      = (sepJoin v pieces, st) := by
  intro pieces
  induction pieces with
  | nil => intro h; exact absurd rfl h
  | cons s rest ih =>
    intro _ hds st
    match rest with
    | [] => rfl
    | s2 :: rs =>
      have hs : '$' ∉ s := hds s (List.mem_cons_self _ _)
      have hds2 : ∀ x ∈ s2 :: rs, '$' ∉ x := fun x hx => hds x (List.mem_cons_of_mem _ hx)
      show parseVarsLoop os vars tn
          (List.replicate ((s :: s2 :: rs).length - 1) ('$' :: w))
          (s ++ ('$' :: w) ++ sepJoin ('$' :: w) (s2 :: rs)) st = _
      have hrep : List.replicate ((s :: s2 :: rs).length - 1) ('$' :: w)
          = ('$' :: w) :: List.replicate ((s2 :: rs).length - 1) ('$' :: w) := by
        simp [List.replicate]
      rw [hrep]
      simp only [parseVarsLoop, dropDollarOnce, hname, hres st.w, setWorld]
      rw [if_neg hv]
      rw [replaceFirst_decomp hs]
      have hsv : '$' ∉ s ++ v := by
        intro hmem
        rcases List.mem_append.mp hmem with h1 | h2
        · exact hs h1
        · exact hvd h2
      have := parseVarsLoop_skipPre os vars tn w v hname hres hv
        ((s2 :: rs).length - 1) (s ++ v) (sepJoin ('$' :: w) (s2 :: rs)) st hsv
      rw [this, ih (by simp) hds2 st]
      show (s ++ v ++ sepJoin v (s2 :: rs), st) = (sepJoin v (s :: s2 :: rs), st)
      rfl

/-- C6 (amended): on a text made of N+1 `$`-free pieces joined by N
occurrences of the same word token, resolving through the configured
variables to a non-empty `$`-free value, substitution replaces all N
occurrences left to right with the value and touches no other state.  (The
`$`-free side conditions are necessary: substituted content is re-scanned by
the later replacements, see the counterexample.) -/
theorem parseVars_replaces_all {W : Type} (os : OsModel W) (vars : List (Str × Str))
    (tn w v : Str) (pieces : List Str) (st : St W)
    (hwne : w ≠ []) (hw : ∀ c ∈ w, wordChar c = true)
    (hb1 : w ≠ str ("TIMESTAMP")) (hb3 : w ≠ str ("cwd"))
    (hp : pieces ≠ []) (hps : ∀ s ∈ pieces, '$' ∉ s)
    (hpt : ∀ s ∈ pieces.tail, headNotWordB s = true)
    (hlk : lookupAssoc vars w = some v) (hnb : trimSpace v ≠ []) (hvd : '$' ∉ v) :
    ParseVars os vars (sepJoin ('$' :: w) pieces) tn st = (sepJoin v pieces, st) := by
  have hv : ¬ (v = []) := by
    intro hc; rw [hc] at hnb; exact hnb rfl
  have hb2 : w ≠ str ("@") := by
    intro hc
    have hmem : '@' ∈ w := by rw [hc]; exact List.mem_cons_self _ _
    exact absurd (hw '@' hmem) (by decide)
  have htd : trimDollar ('$' :: w) = w := trimDollar_dollar_word hw
  have hres : ∀ ω : W, GetVar os ω vars ('$' :: w) tn = (v, ω) := by
    intro ω
    simp only [GetVar, htd]
    rw [if_neg hb1, if_neg hb2, if_neg hb3, hlk]
    simp only [Option.getD_some]
    rw [if_neg hnb]
  have hbr : trimBraces w = w := trimBraces_word hw
  unfold ParseVars
  rw [findTokens_sepJoin hwne hw pieces hp hps hpt]
  exact parseVarsLoop_sepJoin os vars tn w v hbr hres hv hvd pieces hp hps st

/-- C6 counterexample: with `A` defined as `x$A` (a non-empty value that
contains the token's own text), the text `$A $A` does not become `x$A x$A`:
the second replacement matches inside the first inserted value, producing
`xx$A $A` — substituted content is re-scanned, and the second original
occurrence survives. -/
theorem substituted_value_rescanned_cex :
    (ParseVars oracleOs [(str ("A"), str ("x$A"))] (str ("$A $A")) (str ("t")) st0).1
      = str ("xx$A $A")
    ∧ (ParseVars oracleOs [(str ("A"), str ("x$A"))] (str ("$A $A")) (str ("t")) st0).1
      ≠ str ("x$A x$A") :=
  ⟨rfl, by decide⟩

/-- Witness for C6 amended: `echo $CC $CC` with `CC = gcc` becomes
`echo gcc gcc`. -/
theorem parseVars_replaces_all_witness :
    ParseVars oracleOs [(str ("CC"), str ("gcc"))] (str ("echo $CC $CC")) (str ("b")) st0
      = (str ("echo gcc gcc"), st0) := by
  have h := parseVars_replaces_all oracleOs [(str ("CC"), str ("gcc"))] (str ("b"))
    (str ("CC")) (str ("gcc")) [str ("echo "), str (" "), []] st0
    (by decide) (by decide) (by decide) (by decide) (by decide) (by decide)
    (by decide) rfl (by decide) (by decide)
  have e1 : sepJoin ('$' :: str ("CC")) [str ("echo "), str (" "), []]
      = str ("echo $CC $CC") := by decide
  have e2 : sepJoin (str ("gcc")) [str ("echo "), str (" "), []]
      = str ("echo gcc gcc") := by decide
  rw [e1, e2] at h
  exact h

/-- C10 counterexample: for the input `$\x7b\x7bA\x7d` the braced form
matches the whole text as one token whose brace content is `\x7bA`, but the
name the code uses is `Trim(content, "\x7b\x7d") = A`, not the entire brace
content: substitution picks the variable `A` (`outer`), not `\x7bA`
(`inner`). -/
theorem braced_name_trimmed_cex :
    findTokens (str ("$\x7b\x7bA\x7d")) = [str ("$\x7b\x7bA\x7d")]
    ∧ trimBraces (dropDollarOnce (str ("$\x7b\x7bA\x7d"))) = str ("A")
    ∧ str ("A") ≠ str ("\x7bA")
    ∧ (ParseVars oracleOs [(str ("\x7bA"), str ("inner")), (str ("A"), str ("outer"))]
        (str ("$\x7b\x7bA\x7d")) (str ("t")) st0).1 = str ("outer") :=
  ⟨rfl, rfl, by decide, rfl⟩

/-- C10 (amended): the braced form matches `$\x7b`, a nonempty run of
non-`\x7d` characters and `\x7d` as a single token; its variable name is the
brace content with leading and trailing brace characters additionally
trimmed — equal to the entire content whenever the content contains no brace
characters (so `$\x7bA B\x7d` is one token named `A B`).  The unbraced form
is longest-match over word characters: `$` followed by a maximal word run
is one token named by the entire run, so `$NORMAL123` (not followed by a
further word character) is a single token named `NORMAL123` and is never
substituted using `NORMAL`. -/
theorem token_scanner_forms :
    (∀ (content rest : Str), content ≠ [] → '\x7d' ∉ content →
      matchTokenAt ('$' :: '\x7b' :: (content ++ '\x7d' :: rest))
        = some ('$' :: '\x7b' :: (content ++ ['\x7d']), rest))
    ∧ (∀ (content : Str), (∀ c ∈ content, braceChar c = false) →
      trimBraces (dropDollarOnce ('$' :: '\x7b' :: (content ++ ['\x7d']))) = content)
    ∧ (∀ (w rest : Str), w ≠ [] → (∀ c ∈ w, wordChar c = true) →
      headNotWordB rest = true →
      matchTokenAt ('$' :: (w ++ rest)) = some ('$' :: w, rest)
      ∧ trimBraces (dropDollarOnce ('$' :: w)) = w)
    ∧ (ParseVars oracleOs [(str ("NORMAL"), str ("value"))] (str ("$NORMAL123"))
        (str ("t")) st0).1 = str ("$NORMAL123") := by
  refine ⟨fun content rest h1 h2 => matchTokenAt_braced h1 h2,
    fun content hc => ?_,
    fun w rest h1 h2 h3 => ⟨matchTokenAt_word h1 h2 h3, ?_⟩, rfl⟩
  · show trimBy braceChar ('\x7b' :: (content ++ ['\x7d'])) = content
    exact trimBy_wrap (by decide) (by decide) hc
  · show trimBraces w = w
    exact trimBraces_word h2

/-- Witness for C10 amended: the braced token `$\x7bA B\x7d` and the
longest-match token `$NORMAL123`. -/
theorem token_scanner_forms_witness :
    matchTokenAt (str ("$\x7bA B\x7d")) = some (str ("$\x7bA B\x7d"), [])
    ∧ trimBraces (dropDollarOnce (str ("$\x7bA B\x7d"))) = str ("A B")
    ∧ matchTokenAt (str ("$NORMAL123")) = some (str ("$NORMAL123"), []) := by
  have h := token_scanner_forms
  have e1 : '$' :: '\x7b' :: (str ("A B") ++ '\x7d' :: ([] : Str)) = str ("$\x7bA B\x7d") := by
    decide
  have e2 : '$' :: '\x7b' :: (str ("A B") ++ ['\x7d']) = str ("$\x7bA B\x7d") := by decide
  have e3 : '$' :: (str ("NORMAL123") ++ ([] : Str)) = str ("$NORMAL123") := by decide
  have e4 : '$' :: str ("NORMAL123") = str ("$NORMAL123") := by decide
  refine ⟨?_, ?_, ?_⟩
  · have h1 := h.1 (str ("A B")) [] (by decide) (by decide)
    rw [e1] at h1
    exact h1
  · have h2 := h.2.1 (str ("A B")) (by decide)
    rw [e2] at h2
    exact h2
  · have h3 := (h.2.2.1 (str ("NORMAL123")) [] (by decide) (by decide) (by decide)).1
    rw [e3, e4] at h3
    exact h3
